import Mathlib

/-!
Verification of the IDW interpolation core (`idw.py`) of the repository.

The two Python functions `idw` (the per-cell distance-weight kernel) and
`idw_interpolation` (grid construction and per-field orchestration) are
embedded shallowly.  Coordinates and attribute values are modelled as real
numbers; the quantities flowing through the weight computation are modelled
by the type `Fl`, a real number extended with the two infinities and an
invalid value, so that the behaviour of the source on division by zero
(`1/0` yields `inf`, `inf/inf` yields an invalid value) is preserved.
-/

set_option maxHeartbeats 1600000

noncomputable section

namespace IdwRepo

/-- Value model for the quantities flowing through the weight computation of
`idw`: a finite real number, positive infinity, negative infinity, or an
invalid result (the outcome of `inf/inf` and of arithmetic on invalid
values). -/
inductive Fl where
  | fin (q : ℝ)
  | inf
  | neginf
  | nan

instance : DecidableEq Fl := Classical.decEq Fl

/-- Addition on `Fl`, mirroring extended arithmetic: an invalid operand or
the sum of opposite infinities is invalid, an infinity absorbs finite
values, and finite values add as reals. -/
def flAdd : Fl → Fl → Fl
  | Fl.nan, _ => Fl.nan
  | _, Fl.nan => Fl.nan
  | Fl.inf, Fl.neginf => Fl.nan
  | Fl.neginf, Fl.inf => Fl.nan
  | Fl.inf, _ => Fl.inf
  | _, Fl.inf => Fl.inf
  | Fl.neginf, _ => Fl.neginf
  | _, Fl.neginf => Fl.neginf
  | Fl.fin a, Fl.fin b => Fl.fin (a + b)

/-- Multiplication on `Fl`: invalid operands propagate, zero times an
infinity is invalid, a nonzero finite value times an infinity is a signed
infinity, and finite values multiply as reals. -/
def flMul : Fl → Fl → Fl
  | Fl.nan, _ => Fl.nan
  | _, Fl.nan => Fl.nan
  | Fl.inf, Fl.inf => Fl.inf
  | Fl.inf, Fl.neginf => Fl.neginf
  | Fl.neginf, Fl.inf => Fl.neginf
  | Fl.neginf, Fl.neginf => Fl.inf
  | Fl.inf, Fl.fin b => if 0 < b then Fl.inf else if b < 0 then Fl.neginf else Fl.nan
  | Fl.fin a, Fl.inf => if 0 < a then Fl.inf else if a < 0 then Fl.neginf else Fl.nan
  | Fl.neginf, Fl.fin b => if 0 < b then Fl.neginf else if b < 0 then Fl.inf else Fl.nan
  | Fl.fin a, Fl.neginf => if 0 < a then Fl.neginf else if a < 0 then Fl.inf else Fl.nan
  | Fl.fin a, Fl.fin b => Fl.fin (a * b)

/-- Division on `Fl`: invalid operands and `±inf/±inf` propagate as invalid,
an infinity divided by a finite value keeps a signed infinity, a finite
value divided by an infinity is zero, and division of a nonzero finite value
by zero is a signed infinity (the behaviour the source relies on in
`1 / distances ** power`). -/
def flDiv : Fl → Fl → Fl
  | Fl.nan, _ => Fl.nan
  | _, Fl.nan => Fl.nan
  | Fl.inf, Fl.inf => Fl.nan
  | Fl.inf, Fl.neginf => Fl.nan
  | Fl.neginf, Fl.inf => Fl.nan
  | Fl.neginf, Fl.neginf => Fl.nan
  | Fl.inf, Fl.fin b => if b < 0 then Fl.neginf else Fl.inf
  | Fl.neginf, Fl.fin b => if b < 0 then Fl.inf else Fl.neginf
  | Fl.fin _, Fl.inf => Fl.fin 0
  | Fl.fin _, Fl.neginf => Fl.fin 0
  | Fl.fin a, Fl.fin b =>
      if b = 0 then (if a = 0 then Fl.nan else if 0 < a then Fl.inf else Fl.neginf)
      else Fl.fin (a / b)

/-- The comparison `w > 0.0` of the source (`nonzero_weights = weights > 0.0`):
true for positive finite values and positive infinity, false for zero and
negative values, negative infinity and invalid values. -/
def flPosB : Fl → Bool
  | Fl.fin q => decide (0 < q)
  | Fl.inf => true
  | Fl.neginf => false
  | Fl.nan => false

/-- Summation of a list of `Fl` values (`np.sum`), starting from zero. -/
def flSum (l : List Fl) : Fl := l.foldr flAdd (Fl.fin 0)

/-- Line 107 of `idw.py`:
`distances = np.sqrt((xi[i] - x) ** 2 + (yi[i] - y) ** 2)`,
the Euclidean distances from the target point `(px, py)` to every known
sample point. -/
def distancesList (x y : List ℝ) (px py : ℝ) : List ℝ :=
  (x.zip y).map (fun q => Real.sqrt ((px - q.1) ^ 2 + (py - q.2) ^ 2))

/-- Line 110 of `idw.py`: `weights = 1 / (distances ** power)`, computed in
`Fl` so that a zero distance yields an infinite weight. -/
def weightsList (x y : List ℝ) (px py : ℝ) (p : ℕ) : List Fl :=
  (distancesList x y px py).map (fun d => flDiv (Fl.fin 1) (Fl.fin (d ^ p)))

/-- The samples retained at one target point: the pairs `(z_i, w_i)` whose
weight passes the `weights > 0.0` mask of line 113 of `idw.py`. -/
def cellRetained (x y z : List ℝ) (px py : ℝ) (p : ℕ) : List (ℝ × Fl) :=
  (z.zip (weightsList x y px py p)).filter (fun q => flPosB q.2)

/-- The value the loop body of `idw` computes for one target point
`(px, py)`: normalize the retained weights by their sum unless that sum is
exactly zero (lines 116-118), then form `np.sum(z[mask] * weights[mask])`
(line 121).  When no weight passes the mask the result is the zero the
output array was initialized with. -/
def cellValue (x y z : List ℝ) (px py : ℝ) (p : ℕ) : Fl :=
  let retained := cellRetained x y z px py p
  let s := flSum (retained.map Prod.snd)
  flSum (retained.map (fun q => flMul (Fl.fin q.1) (if s = Fl.fin 0 then q.2 else flDiv q.2 s)))

/-- One iteration of the loop of `idw` acting on the output array `zi`:
when the retained set at index `i` is empty the body is skipped and `zi` is
unchanged, otherwise `zi[i]` is assigned the interpolated value. -/
def idwStepZi (x y z xi yi : List ℝ) (p : ℕ) (zi : List Fl) (i : ℕ) : List Fl :=
  if (cellRetained x y z (xi.getD i 0) (yi.getD i 0) p).isEmpty then zi
  else zi.set i (cellValue x y z (xi.getD i 0) (yi.getD i 0) p)

/-- The state of one run of `idw`: the five arrays the caller passes in and
the output array `zi` being filled. -/
structure IdwState where
  x : List ℝ
  y : List ℝ
  z : List ℝ
  xi : List ℝ
  yi : List ℝ
  zi : List Fl

/-- One loop iteration of `idw` on the whole state: only the `zi` component
is written, every input array is carried through untouched. -/
def idwStepSt (p : ℕ) (s : IdwState) (i : ℕ) : IdwState :=
  ⟨s.x, s.y, s.z, s.xi, s.yi, idwStepZi s.x s.y s.z s.xi s.yi p s.zi i⟩

/-- Line 103 of `idw.py`: `zi = np.zeros_like(xi)`. -/
def idwInit (xi : List ℝ) : List Fl := List.replicate xi.length (Fl.fin 0)

/-- The full run of `idw`: fold the loop body over `range(len(xi))`
starting from the zero-initialized output array. -/
def idwRunSt (x y z xi yi : List ℝ) (p : ℕ) : IdwState :=
  (List.range xi.length).foldl (idwStepSt p) ⟨x, y, z, xi, yi, idwInit xi⟩

/-- The function `idw(x, y, z, xi, yi, power, radius)` of `idw.py`: the
output array after the loop.  As in the source, the `radius` parameter is
accepted but never read. -/
def idw (x y z xi yi : List ℝ) (p : ℕ) (radius : ℝ) : List Fl :=
  (idwRunSt x y z xi yi p).zi

/-- The `np.min` of the coordinate list (the value is only meaningful for
nonempty input, as in the source where `np.min` on an empty array fails). -/
def listMin : List ℝ → ℝ
  | [] => 0
  | a :: t => t.foldl min a

/-- The `np.max` of the coordinate list. -/
def listMax : List ℝ → ℝ
  | [] => 0
  | a :: t => t.foldl max a

/-- The model of `np.arange(start, stop, step)` for a positive step: the values
`start + k * step` for `k` below `ceil((stop - start) / step)`. -/
def arange (start stop step : ℝ) : List ℝ :=
  (List.range (Int.ceil ((stop - start) / step)).toNat).map (fun k : ℕ => start + (k : ℝ) * step)

/-- Line 53 of `idw.py`: `xi = np.arange(xmin, xmax, cell_size)`. -/
def gridXs (x : List ℝ) (cell : ℝ) : List ℝ := arange (listMin x) (listMax x) cell

/-- Line 54 of `idw.py`: `yi = np.arange(ymin, ymax, cell_size)`. -/
def gridYs (y : List ℝ) (cell : ℝ) : List ℝ := arange (listMin y) (listMax y) cell

/-- The first component of `np.meshgrid(xi, yi)`: one row per entry of
`ys`, each row a copy of `xs`. -/
def meshX (xs ys : List ℝ) : List (List ℝ) := ys.map (fun _ => xs)

/-- The second component of `np.meshgrid(xi, yi)`: row `j` holds `ys[j]`
repeated `len(xs)` times. -/
def meshY (xs ys : List ℝ) : List (List ℝ) := ys.map (fun b => List.replicate xs.length b)

/-- One attribute column of the dataset: its name and, when the values can
be coerced to float, the coerced values; `none` models a column whose
values cannot be parsed as numeric (where `astype(float)` raises). -/
structure Column where
  name : String
  vals : Option (List ℝ)

/-- A numpy array as stored in the result mapping: its shape and its
flattened data. -/
structure NArr where
  shape : List ℕ
  data : List Fl

/-- Lines 39-43 of `idw.py`: drop the coordinate and geometry columns, then
drop the explicitly excluded ones. -/
def attributeCols (cols : List Column) (excl : List String) : List Column :=
  (cols.filter (fun c => !(["Lat", "Long", "geometry"].contains c.name))).filter
    (fun c => !(excl.contains c.name))

/-- The function `idw_interpolation` of `idw.py`, with the dataset already
read: from the sample coordinates `x`, `y` and the attribute columns it
builds the grid once, then for each attribute field whose values parse as
numeric it stores the kernel output under the field name; a field that
fails to parse is skipped and processing continues.  The kernel output is
stored exactly as the source stores it: the one-dimensional array of length
`len(xi.flatten())`.  Returns `(xi, yi, interpolated_data)`. -/
def idw_interpolation (x y : List ℝ) (cols : List Column) (p : ℕ)
    (radius cell : ℝ) (excl : List String) :
    List (List ℝ) × List (List ℝ) × List (String × NArr) :=
  let xs := gridXs x cell
  let ys := gridYs y cell
  let xi := meshX xs ys
  let yi := meshY xs ys
  let xiF := xi.flatten
  let yiF := yi.flatten
  let fields := attributeCols cols excl
  let data := fields.filterMap (fun c =>
    c.vals.map (fun z => (c.name, NArr.mk [xiF.length] (idw x y z xiF yiF p radius))))
  (xi, yi, data)

/-! Basic lemmas about the value model -/

lemma flSum_nil : flSum [] = Fl.fin 0 := rfl

lemma flSum_cons (w : Fl) (l : List Fl) : flSum (w :: l) = flAdd w (flSum l) := rfl

lemma flAdd_fin_fin (a b : ℝ) : flAdd (Fl.fin a) (Fl.fin b) = Fl.fin (a + b) := rfl

/-- Summing a list of finite values gives the finite sum of the values. -/
lemma flSum_map_fin (l : List ℝ) : flSum (l.map Fl.fin) = Fl.fin l.sum := by
  induction l with
  | nil => rfl
  | cons a t ih => simp [flSum_cons, ih, flAdd_fin_fin]

lemma flPosB_fin (q : ℝ) : flPosB (Fl.fin q) = true ↔ 0 < q := by
  simp [flPosB]

/-- A sum of values that all pass the positivity mask is either over the
empty list, infinite, or a strictly positive finite value. -/
lemma flSum_of_pos (l : List Fl) (h : ∀ w ∈ l, flPosB w = true) :
    l = [] ∨ flSum l = Fl.inf ∨ ∃ b : ℝ, flSum l = Fl.fin b ∧ 0 < b := by
  induction l with
  | nil => exact Or.inl rfl
  | cons w t ih =>
    have hw : flPosB w = true := h w (by simp)
    have ht : ∀ v ∈ t, flPosB v = true := fun v hv => h v (by simp [hv])
    refine Or.inr ?_
    rcases ih ht with h0 | h1 | ⟨b, hb, hbpos⟩
    · subst h0
      cases w with
      | fin q =>
        right
        refine ⟨q + 0, by simp [flSum_cons, flSum_nil, flAdd_fin_fin], ?_⟩
        have : 0 < q := (flPosB_fin q).mp hw
        linarith
      | inf => left; rfl
      | neginf => simp [flPosB] at hw
      | nan => simp [flPosB] at hw
    · cases w with
      | fin q => left; simp [flSum_cons, h1, flAdd]
      | inf => left; simp [flSum_cons, h1, flAdd]
      | neginf => simp [flPosB] at hw
      | nan => simp [flPosB] at hw
    · cases w with
      | fin q =>
        right
        have hq : 0 < q := (flPosB_fin q).mp hw
        exact ⟨q + b, by simp [flSum_cons, hb, flAdd_fin_fin], by linarith⟩
      | inf => left; simp [flSum_cons, hb, flAdd]
      | neginf => simp [flPosB] at hw
      | nan => simp [flPosB] at hw

/-- A nonempty list of mask-passing values never sums to finite zero. -/
lemma flSum_of_pos_ne_zero (l : List Fl) (h : ∀ w ∈ l, flPosB w = true)
    (hs : flSum l = Fl.fin 0) : l = [] := by
  rcases flSum_of_pos l h with h0 | h1 | ⟨b, hb, hbpos⟩
  · exact h0
  · rw [h1] at hs; cases hs
  · rw [hb] at hs
    injection hs with hb0
    exact absurd hb0.symm (ne_of_lt hbpos)

/-! Lemmas about minimum and maximum of a coordinate list -/

lemma foldl_min_le_init (t : List ℝ) : ∀ a : ℝ, t.foldl min a ≤ a := by
  induction t with
  | nil => intro a; simp
  | cons b t ih =>
    intro a
    calc (b :: t).foldl min a = t.foldl min (min a b) := rfl
    _ ≤ min a b := ih (min a b)
    _ ≤ a := min_le_left a b

lemma foldl_min_le (t : List ℝ) : ∀ a v : ℝ, v ∈ a :: t → t.foldl min a ≤ v := by
  induction t with
  | nil =>
    intro a v h
    simp at h
    simp [h]
  | cons b t ih =>
    intro a v h
    show t.foldl min (min a b) ≤ v
    rcases List.mem_cons.mp h with h1 | h2
    · exact h1 ▸ (foldl_min_le_init t (min a b)).trans (min_le_left a b)
    · rcases List.mem_cons.mp h2 with h3 | h4
      · exact h3 ▸ (foldl_min_le_init t (min a b)).trans (min_le_right a b)
      · exact ih (min a b) v (List.mem_cons_of_mem (min a b) h4)

lemma listMin_le_of_mem {l : List ℝ} {v : ℝ} (h : v ∈ l) : listMin l ≤ v := by
  cases l with
  | nil => cases h
  | cons a t => exact foldl_min_le t a v h

lemma init_le_foldl_max (t : List ℝ) : ∀ a : ℝ, a ≤ t.foldl max a := by
  induction t with
  | nil => intro a; simp
  | cons b t ih =>
    intro a
    calc a ≤ max a b := le_max_left a b
    _ ≤ t.foldl max (max a b) := ih (max a b)
    _ = (b :: t).foldl max a := rfl

lemma le_foldl_max (t : List ℝ) : ∀ a v : ℝ, v ∈ a :: t → v ≤ t.foldl max a := by
  induction t with
  | nil =>
    intro a v h
    simp at h
    simp [h]
  | cons b t ih =>
    intro a v h
    show v ≤ t.foldl max (max a b)
    rcases List.mem_cons.mp h with h1 | h2
    · exact h1 ▸ (le_max_left a b).trans (init_le_foldl_max t (max a b))
    · rcases List.mem_cons.mp h2 with h3 | h4
      · exact h3 ▸ (le_max_right a b).trans (init_le_foldl_max t (max a b))
      · exact ih (max a b) v (List.mem_cons_of_mem (max a b) h4)

lemma le_listMax_of_mem {l : List ℝ} {v : ℝ} (h : v ∈ l) : v ≤ listMax l := by
  cases l with
  | nil => cases h
  | cons a t => exact le_foldl_max t a v h

/-! Characterization of the kernel loop -/

/-- The loop of `idw` writes only the `zi` component of the state. -/
lemma foldl_stepSt (p : ℕ) (x y z xi yi : List ℝ) (l : List ℕ) :
    ∀ zi0 : List Fl,
      l.foldl (idwStepSt p) ⟨x, y, z, xi, yi, zi0⟩ =
        ⟨x, y, z, xi, yi, l.foldl (idwStepZi x y z xi yi p) zi0⟩ := by
  induction l with
  | nil => intro zi0; rfl
  | cons i t ih =>
    intro zi0
    show t.foldl (idwStepSt p) (idwStepSt p ⟨x, y, z, xi, yi, zi0⟩ i) = _
    rw [show idwStepSt p ⟨x, y, z, xi, yi, zi0⟩ i =
          ⟨x, y, z, xi, yi, idwStepZi x y z xi yi p zi0 i⟩ from rfl, ih]
    rfl

lemma idwStepZi_length (x y z xi yi : List ℝ) (p : ℕ) (zi : List Fl) (i : ℕ) :
    (idwStepZi x y z xi yi p zi i).length = zi.length := by
  unfold idwStepZi
  split
  · rfl
  · exact List.length_set zi i _

lemma foldl_stepZi_length (x y z xi yi : List ℝ) (p : ℕ) (l : List ℕ) :
    ∀ zi : List Fl, (l.foldl (idwStepZi x y z xi yi p) zi).length = zi.length := by
  induction l with
  | nil => intro zi; rfl
  | cons i t ih =>
    intro zi
    show (t.foldl (idwStepZi x y z xi yi p) (idwStepZi x y z xi yi p zi i)).length = _
    rw [ih, idwStepZi_length]

/-- A loop iteration leaves every position other than its own index alone. -/
lemma idwStepZi_getElem_ne (x y z xi yi : List ℝ) (p : ℕ) (zi : List Fl) (i j : ℕ)
    (h : i ≠ j) : (idwStepZi x y z xi yi p zi i)[j]? = zi[j]? := by
  unfold idwStepZi
  split
  · rfl
  · exact List.getElem?_set_ne h

/-- Positions at or beyond the iteration bound are untouched by the loop. -/
lemma foldl_stepZi_getElem_ge (x y z xi yi : List ℝ) (p : ℕ) (n j : ℕ) (hj : n ≤ j) :
    ∀ zi : List Fl, ((List.range n).foldl (idwStepZi x y z xi yi p) zi)[j]? = zi[j]? := by
  induction n with
  | zero => intro zi; rfl
  | succ n ih =>
    intro zi
    rw [List.range_succ, List.foldl_append]
    show (idwStepZi x y z xi yi p _ n)[j]? = _
    rw [idwStepZi_getElem_ne _ _ _ _ _ _ _ _ _ (by omega), ih (by omega)]

/-- When no weight passes the mask, the loop body value is the zero the
output array was initialized with. -/
lemma cellValue_of_empty (x y z : List ℝ) (px py : ℝ) (p : ℕ)
    (h : cellRetained x y z px py p = []) : cellValue x y z px py p = Fl.fin 0 := by
  simp [cellValue, h, flSum_nil]

/-- After the loop has passed an index, that position of the output array
holds the interpolated value for the corresponding target point. -/
lemma foldl_stepZi_getElem_lt (x y z xi yi : List ℝ) (p : ℕ) (n j : ℕ) (hj : j < n) :
    ∀ zi : List Fl, j < zi.length → zi[j]? = some (Fl.fin 0) →
      ((List.range n).foldl (idwStepZi x y z xi yi p) zi)[j]? =
        some (cellValue x y z (xi.getD j 0) (yi.getD j 0) p) := by
  induction n with
  | zero => omega
  | succ n ih =>
    intro zi hlen h0
    rw [List.range_succ, List.foldl_append]
    rcases Nat.lt_or_ge j n with hlt | hge
    · show (idwStepZi x y z xi yi p _ n)[j]? = _
      rw [idwStepZi_getElem_ne _ _ _ _ _ _ _ _ _ (by omega)]
      exact ih hlt zi hlen h0
    · have hjn : j = n := by omega
      subst hjn
      show (idwStepZi x y z xi yi p ((List.range j).foldl (idwStepZi x y z xi yi p) zi) j)[j]? = _
      have hpres : ((List.range j).foldl (idwStepZi x y z xi yi p) zi)[j]? = some (Fl.fin 0) := by
        rw [foldl_stepZi_getElem_ge _ _ _ _ _ _ _ _ le_rfl, h0]
      have hlen2 : j < ((List.range j).foldl (idwStepZi x y z xi yi p) zi).length := by
        rw [foldl_stepZi_length]; exact hlen
      set acc := (List.range j).foldl (idwStepZi x y z xi yi p) zi with hacc
      by_cases hemp : (cellRetained x y z (xi.getD j 0) (yi.getD j 0) p).isEmpty = true
      · have hstep : idwStepZi x y z xi yi p acc j = acc := by
          unfold idwStepZi
          rw [if_pos hemp]
        rw [hstep, hpres, cellValue_of_empty x y z (xi.getD j 0) (yi.getD j 0) p
          (List.isEmpty_iff.mp hemp)]
      · have hstep : idwStepZi x y z xi yi p acc j =
            acc.set j (cellValue x y z (xi.getD j 0) (yi.getD j 0) p) := by
          unfold idwStepZi
          rw [if_neg hemp]
        rw [hstep, List.getElem?_set_self hlen2]

/-- Each entry of the array returned by `idw` is the kernel value at the
corresponding target point. -/
lemma idw_getElem (x y z xi yi : List ℝ) (p : ℕ) (r : ℝ) (j : ℕ) (hj : j < xi.length) :
    (idw x y z xi yi p r)[j]? = some (cellValue x y z (xi.getD j 0) (yi.getD j 0) p) := by
  unfold idw idwRunSt
  rw [foldl_stepSt]
  exact foldl_stepZi_getElem_lt x y z xi yi p xi.length j hj (idwInit xi)
    (by simp [idwInit, hj]) (by simp [idwInit, hj])

/-- Helper for the session contract: the names stored in the result mapping
are exactly the attribute fields whose values parsed as numeric. -/
lemma map_fst_filterMap_vals (l : List Column) (F : Column → List ℝ → NArr) :
    (l.filterMap (fun c => c.vals.map (fun zs => (c.name, F c zs)))).map Prod.fst
      = (l.filter (fun c => c.vals.isSome)).map Column.name := by
  induction l with
  | nil => rfl
  | cons c t ih =>
    cases hv : c.vals with
    | none => simp [List.filterMap_cons, List.filter_cons, hv, ih]
    | some zs => simp [List.filterMap_cons, List.filter_cons, hv, ih]

/-! Claim theorems -/

/-- Claim C4: for identical sample coordinates, sample values, target
coordinates and power, the kernel (and the session built on it) returns
identical values for every pair of radius values: the radius parameter is
accepted but never read, so no sample is ever excluded by it. -/
theorem radius_never_filters (x y z xi yi : List ℝ) (p : ℕ) (r1 r2 : ℝ) :
    idw x y z xi yi p r1 = idw x y z xi yi p r2 ∧
    ∀ (cols : List Column) (cell : ℝ) (excl : List String),
      idw_interpolation x y cols p r1 cell excl =
        idw_interpolation x y cols p r2 cell excl :=
  ⟨rfl, fun _ _ _ => rfl⟩

/-- Claim C9: two runs on identical inputs and identical configuration
produce identical surfaces, both for the kernel and for the per-field
orchestration; the embedded computation is a pure function with a fixed
iteration order. -/
theorem interpolation_deterministic (x y z xi yi x2 y2 z2 xi2 yi2 : List ℝ)
    (p p2 : ℕ) (r r2 cell cell2 : ℝ) (cols cols2 : List Column)
    (excl excl2 : List String)
    (hx : x = x2) (hy : y = y2) (hz : z = z2) (hxi : xi = xi2) (hyi : yi = yi2)
    (hp : p = p2) (hr : r = r2) (hcell : cell = cell2) (hcols : cols = cols2)
    (hexcl : excl = excl2) :
    idw x y z xi yi p r = idw x2 y2 z2 xi2 yi2 p2 r2 ∧
    idw_interpolation x y cols p r cell excl =
      idw_interpolation x2 y2 cols2 p2 r2 cell2 excl2 := by
  subst hx hy hz hxi hyi hp hr hcell hcols hexcl
  exact ⟨rfl, rfl⟩

/-- Witness for claim C9 at concrete inputs. -/
theorem interpolation_deterministic_witness :
    idw [0] [0] [5] [1] [1] 2 1 = idw [0] [0] [5] [1] [1] 2 1 ∧
    idw_interpolation [0] [0] [] 2 1 1 [] = idw_interpolation [0] [0] [] 2 1 1 [] :=
  interpolation_deterministic [0] [0] [5] [1] [1] [0] [0] [5] [1] [1] 2 2 1 1 1 1 [] [] [] []
    rfl rfl rfl rfl rfl rfl rfl rfl rfl rfl

/-- Claim C10: a run of the kernel leaves all five input arrays unchanged in
the loop state; the only array it writes is the freshly allocated output,
which has one entry per target point. -/
theorem kernel_inputs_unchanged (x y z xi yi : List ℝ) (p : ℕ) (r : ℝ) :
    (idwRunSt x y z xi yi p).x = x ∧ (idwRunSt x y z xi yi p).y = y ∧
    (idwRunSt x y z xi yi p).z = z ∧ (idwRunSt x y z xi yi p).xi = xi ∧
    (idwRunSt x y z xi yi p).yi = yi ∧ (idw x y z xi yi p r).length = xi.length := by
  unfold idwRunSt idw
  rw [foldl_stepSt]
  refine ⟨rfl, rfl, rfl, rfl, rfl, ?_⟩
  show ((idwRunSt x y z xi yi p).zi).length = xi.length
  unfold idwRunSt
  rw [foldl_stepSt]
  show ((List.range xi.length).foldl (idwStepZi x y z xi yi p) (idwInit xi)).length = _
  rw [foldl_stepZi_length]
  simp [idwInit]

/-- Claim C5: at a target point whose retained weight set is empty or sums
to zero, the kernel value is the zero the output array was initialized
with; the field does not fail. -/
theorem degenerate_weights_default (x y z : List ℝ) (px py : ℝ) (p : ℕ)
    (h : cellRetained x y z px py p = [] ∨
      flSum ((cellRetained x y z px py p).map Prod.snd) = Fl.fin 0) :
    cellValue x y z px py p = Fl.fin 0 := by
  rcases h with h | h
  · exact cellValue_of_empty x y z px py p h
  · have hall : ∀ w ∈ (cellRetained x y z px py p).map Prod.snd, flPosB w = true := by
      intro w hw
      rcases List.mem_map.mp hw with ⟨q, hq, rfl⟩
      unfold cellRetained at hq
      have h2 := List.of_mem_filter hq
      simpa using h2
    have hnil := flSum_of_pos_ne_zero _ hall h
    have hemp : cellRetained x y z px py p = [] := by
      cases hr : cellRetained x y z px py p with
      | nil => rfl
      | cons a t => rw [hr] at hnil; simp at hnil
    exact cellValue_of_empty x y z px py p hemp

/-- Witness for claim C5: with no samples at all, the retained set is empty
and the kernel value is the zero default. -/
theorem degenerate_weights_default_witness :
    (cellRetained ([] : List ℝ) [] [] 0 0 2 = [] ∨
      flSum ((cellRetained ([] : List ℝ) [] [] 0 0 2).map Prod.snd) = Fl.fin 0) ∧
    cellValue ([] : List ℝ) [] [] 0 0 2 = Fl.fin 0 :=
  ⟨Or.inl rfl, degenerate_weights_default [] [] [] 0 0 2 (Or.inl rfl)⟩

/-- Claim C6: a field whose values cannot be coerced to numeric is skipped
and absent from the returned mapping while the remaining fields are all
processed, in order; in particular a run mixing one numeric and one
non-numeric field yields output exactly for the numeric field. -/
theorem failed_fields_skipped :
    (∀ (x y : List ℝ) (cols : List Column) (p : ℕ) (r cell : ℝ) (excl : List String),
      ((idw_interpolation x y cols p r cell excl).2.2).map Prod.fst
        = ((attributeCols cols excl).filter (fun c => c.vals.isSome)).map Column.name) ∧
    ((idw_interpolation [0, 1] [0, 1] [⟨"a", some [1, 2]⟩, ⟨"b", none⟩]
        2 1 (1/2) []).2.2).map Prod.fst = ["a"] := by
  constructor
  · intro x y cols p r cell excl
    unfold idw_interpolation
    exact map_fst_filterMap_vals (attributeCols cols excl) _
  · unfold idw_interpolation
    rw [map_fst_filterMap_vals (attributeCols [⟨"a", some [1, 2]⟩, ⟨"b", none⟩] []) _]
    simp [attributeCols, List.filter_cons]

/-- Claim C8: at a sample lying at zero distance from the target point, the
raw weight `1 / d ** power` is computed by a division by zero that yields
an infinite weight; no error is raised. -/
theorem zero_distance_weight_inf (x y : List ℝ) (px py : ℝ) (p : ℕ) (hp : 0 < p)
    (i : ℕ) (hi : i < (x.zip y).length) (hxy : (x.zip y).get ⟨i, hi⟩ = (px, py)) :
    (weightsList x y px py p)[i]? = some Fl.inf := by
  have h1 : (x.zip y)[i]? = some (px, py) := by
    rw [List.getElem?_eq_getElem hi]
    exact congrArg some hxy
  unfold weightsList distancesList
  rw [List.getElem?_map, List.getElem?_map, h1]
  have h2 : Real.sqrt ((px - px) ^ 2 + (py - py) ^ 2) = 0 := by
    simp
  simp only [Option.map_some']
  rw [h2, zero_pow (Nat.pos_iff_ne_zero.mp hp)]
  norm_num [flDiv]

/-- Witness for claim C8 at a concrete sample coinciding with the target. -/
theorem zero_distance_weight_inf_witness :
    0 < 2 ∧ (weightsList [3] [4] 3 4 2)[0]? = some Fl.inf :=
  ⟨by decide, zero_distance_weight_inf [3] [4] 3 4 2 (by decide) 0 (by simp) rfl⟩

/-- Elements of `arange`: the `k`-th value is `start + k * step`, and for a
positive step every produced value is strictly below `stop`. -/
lemma arange_get (start stop step : ℝ) (hstep : 0 < step) (k : ℕ)
    (hk : k < (arange start stop step).length) :
    (arange start stop step).get ⟨k, hk⟩ = start + k * step ∧ start + k * step < stop := by
  have hlen : (arange start stop step).length = (Int.ceil ((stop - start) / step)).toNat := by
    rw [arange, List.length_map, List.length_range]
  have hk2 : k < (Int.ceil ((stop - start) / step)).toNat := hlen ▸ hk
  have hik : (k : ℤ) < Int.ceil ((stop - start) / step) := Int.lt_toNat.mp hk2
  constructor
  · rw [List.get_eq_getElem]
    simp only [arange, List.getElem_map, List.getElem_range]
  · have h1 : ((k : ℤ) : ℝ) + 1 ≤ (Int.ceil ((stop - start) / step) : ℝ) := by
      have := Int.add_one_le_iff.mpr hik
      exact_mod_cast this
    have h2 : (Int.ceil ((stop - start) / step) : ℝ) < (stop - start) / step + 1 :=
      Int.ceil_lt_add_one _
    have h3 : (k : ℝ) < (stop - start) / step := by
      have hcast : ((k : ℤ) : ℝ) = (k : ℝ) := by push_cast; ring
      linarith
    have h4 : (k : ℝ) * step < stop - start := (lt_div_iff₀ hstep).mp h3
    linarith

/-- Claim C1: for a nonempty sample set and positive cell size, each grid
axis has `ceil((max - min) / cell_size)` entries, the coordinate arrays
step by `cell_size` from the coordinate-wise minimum and stay strictly
below the maximum, and the session hands every attribute field the same
meshgrid built from those two arrays. -/
theorem grid_shape_spec (x y : List ℝ) (cell : ℝ)
    (hx : x ≠ []) (hy : y ≠ []) (hc : 0 < cell) :
    (gridXs x cell).length = (Int.ceil ((listMax x - listMin x) / cell)).toNat ∧
    (gridYs y cell).length = (Int.ceil ((listMax y - listMin y) / cell)).toNat ∧
    (∀ k (hk : k < (gridXs x cell).length),
      (gridXs x cell).get ⟨k, hk⟩ = listMin x + k * cell ∧
      listMin x + k * cell < listMax x) ∧
    (∀ k (hk : k < (gridYs y cell).length),
      (gridYs y cell).get ⟨k, hk⟩ = listMin y + k * cell ∧
      listMin y + k * cell < listMax y) ∧
    (∀ (cols : List Column) (p : ℕ) (r : ℝ) (excl : List String),
      (idw_interpolation x y cols p r cell excl).1 =
        meshX (gridXs x cell) (gridYs y cell) ∧
      (idw_interpolation x y cols p r cell excl).2.1 =
        meshY (gridXs x cell) (gridYs y cell)) :=
  ⟨by rw [gridXs, arange, List.length_map, List.length_range],
   by rw [gridYs, arange, List.length_map, List.length_range],
   fun k hk => arange_get (listMin x) (listMax x) cell hc k hk,
   fun k hk => arange_get (listMin y) (listMax y) cell hc k hk,
   fun _ _ _ _ => ⟨rfl, rfl⟩⟩

/-- Witness for claim C1 at a concrete two-sample dataset. -/
theorem grid_shape_spec_witness :
    (([0, 1] : List ℝ) ≠ [] ∧ (0 : ℝ) < 1/2) ∧
    ((gridXs [0, 1] (1/2)).length = (Int.ceil ((listMax [0, 1] - listMin [0, 1]) / (1/2))).toNat ∧
    (gridYs [0, 1] (1/2)).length = (Int.ceil ((listMax [0, 1] - listMin [0, 1]) / (1/2))).toNat ∧
    (∀ k (hk : k < (gridXs [0, 1] (1/2)).length),
      (gridXs [0, 1] (1/2)).get ⟨k, hk⟩ = listMin [0, 1] + k * (1/2) ∧
      listMin [0, 1] + k * (1/2) < listMax [0, 1]) ∧
    (∀ k (hk : k < (gridYs [0, 1] (1/2)).length),
      (gridYs [0, 1] (1/2)).get ⟨k, hk⟩ = listMin [0, 1] + k * (1/2) ∧
      listMin [0, 1] + k * (1/2) < listMax [0, 1]) ∧
    (∀ (cols : List Column) (p : ℕ) (r : ℝ) (excl : List String),
      (idw_interpolation [0, 1] [0, 1] cols p r (1/2) excl).1 =
        meshX (gridXs [0, 1] (1/2)) (gridYs [0, 1] (1/2)) ∧
      (idw_interpolation [0, 1] [0, 1] cols p r (1/2) excl).2.1 =
        meshY (gridXs [0, 1] (1/2)) (gridYs [0, 1] (1/2)))) :=
  ⟨⟨by simp, by norm_num⟩,
   grid_shape_spec [0, 1] [0, 1] (1/2) (by simp) (by simp) (by norm_num)⟩

lemma flDiv_fin_fin (a b : ℝ) : flDiv (Fl.fin a) (Fl.fin b) =
    if b = 0 then (if a = 0 then Fl.nan else if 0 < a then Fl.inf else Fl.neginf)
    else Fl.fin (a / b) := rfl

lemma flMul_fin_fin (a b : ℝ) : flMul (Fl.fin a) (Fl.fin b) = Fl.fin (a * b) := rfl

/-- When every sample lies at positive distance from the target, every raw
weight is the finite positive value `1 / d ** power`. -/
lemma weightsList_of_pos (x y : List ℝ) (px py : ℝ) (p : ℕ)
    (hd : ∀ q ∈ x.zip y, (px - q.1) ^ 2 + (py - q.2) ^ 2 ≠ 0) :
    weightsList x y px py p =
      ((x.zip y).map
        (fun q => 1 / Real.sqrt ((px - q.1) ^ 2 + (py - q.2) ^ 2) ^ p)).map Fl.fin := by
  unfold weightsList distancesList
  rw [List.map_map, List.map_map]
  apply List.map_congr_left
  intro q hq
  have h1 : 0 < (px - q.1) ^ 2 + (py - q.2) ^ 2 :=
    lt_of_le_of_ne (by positivity) (Ne.symm (hd q hq))
  have h3 : 0 < Real.sqrt ((px - q.1) ^ 2 + (py - q.2) ^ 2) ^ p :=
    pow_pos (Real.sqrt_pos.mpr h1) p
  show flDiv (Fl.fin 1) (Fl.fin (Real.sqrt ((px - q.1) ^ 2 + (py - q.2) ^ 2) ^ p)) = _
  rw [flDiv_fin_fin, if_neg (ne_of_gt h3)]
  rfl

/-- A weighted sum with positive weights of values lying in `[lo, hi]` is
bounded by `lo` and `hi` times the total weight. -/
lemma weighted_sum_bounds (L : List (ℝ × ℝ)) (lo hi : ℝ)
    (hw : ∀ q ∈ L, 0 < q.2) (hb : ∀ q ∈ L, lo ≤ q.1 ∧ q.1 ≤ hi) :
    lo * (L.map Prod.snd).sum ≤ (L.map (fun q => q.1 * q.2)).sum ∧
    (L.map (fun q => q.1 * q.2)).sum ≤ hi * (L.map Prod.snd).sum := by
  constructor
  · have h1 : (L.map (fun q => lo * q.2)).sum ≤ (L.map (fun q => q.1 * q.2)).sum := by
      apply List.sum_le_sum
      intro q hq
      exact mul_le_mul_of_nonneg_right (hb q hq).1 (le_of_lt (hw q hq))
    have h2 : (L.map (fun q => lo * q.2)).sum = lo * (L.map Prod.snd).sum :=
      List.sum_map_mul_left L Prod.snd lo
    rw [← h2]
    exact h1
  · have h1 : (L.map (fun q => q.1 * q.2)).sum ≤ (L.map (fun q => hi * q.2)).sum := by
      apply List.sum_le_sum
      intro q hq
      exact mul_le_mul_of_nonneg_right (hb q hq).2 (le_of_lt (hw q hq))
    have h2 : (L.map (fun q => hi * q.2)).sum = hi * (L.map Prod.snd).sum :=
      List.sum_map_mul_left L Prod.snd hi
    rw [← h2]
    exact h1

/-- Claim C2 (amended): at every target point lying at strictly positive
distance from every sample, the kernel value is a finite convex combination
of the sample values and lies within `[min z, max z]`. -/
theorem kernel_value_in_range (x y z : List ℝ) (px py : ℝ) (p : ℕ)
    (hzx : z.length = x.length) (hyx : y.length = x.length) (hz : z ≠ [])
    (hd : ∀ q ∈ x.zip y, (px - q.1) ^ 2 + (py - q.2) ^ 2 ≠ 0) :
    ∃ v : ℝ, cellValue x y z px py p = Fl.fin v ∧ listMin z ≤ v ∧ v ≤ listMax z := by
  classical
  set wR : List ℝ :=
    (x.zip y).map (fun q => 1 / Real.sqrt ((px - q.1) ^ 2 + (py - q.2) ^ 2) ^ p) with hwR
  have hW : weightsList x y px py p = wR.map Fl.fin := weightsList_of_pos x y px py p hd
  have hwpos : ∀ w ∈ wR, 0 < w := by
    intro w hw
    rw [hwR] at hw
    rcases List.mem_map.mp hw with ⟨q, hq, rfl⟩
    have h1 : 0 < (px - q.1) ^ 2 + (py - q.2) ^ 2 :=
      lt_of_le_of_ne (by positivity) (Ne.symm (hd q hq))
    exact one_div_pos.mpr (pow_pos (Real.sqrt_pos.mpr h1) p)
  have hzip : z.zip (wR.map Fl.fin) = (z.zip wR).map (fun q => (q.1, Fl.fin q.2)) := by
    rw [List.zip_map_right]
    apply List.map_congr_left
    intro q _
    rcases q with ⟨a, b⟩
    rfl
  have hmempos : ∀ q ∈ z.zip wR, (0 : ℝ) < q.2 := by
    intro q hq
    rcases q with ⟨a, b⟩
    exact hwpos b (List.of_mem_zip hq).2
  have hret : cellRetained x y z px py p = (z.zip wR).map (fun q => (q.1, Fl.fin q.2)) := by
    unfold cellRetained
    rw [hW, hzip, List.filter_map]
    have hall : ∀ q ∈ z.zip wR,
        ((fun q : ℝ × Fl => flPosB q.2) ∘ (fun q : ℝ × ℝ => (q.1, Fl.fin q.2))) q = true := by
      intro q hq
      show flPosB (Fl.fin q.2) = true
      exact (flPosB_fin q.2).mpr (hmempos q hq)
    rw [List.filter_eq_self.mpr hall]
  have hlenzw : (z.zip wR).length = z.length := by
    have hwlen : wR.length = x.length := by
      rw [hwR, List.length_map, List.length_zip, hyx]
      exact min_self x.length
    rw [List.length_zip, hwlen, hzx]
    exact min_self x.length
  have hne : z.zip wR ≠ [] := by
    have : 0 < (z.zip wR).length := by
      rw [hlenzw]
      exact List.length_pos.mpr hz
    exact List.length_pos.mp this
  set S : ℝ := ((z.zip wR).map Prod.snd).sum with hS
  have hSpos : 0 < S := by
    rw [hS]
    apply List.sum_pos
    · intro b hb
      rcases List.mem_map.mp hb with ⟨q, hq, rfl⟩
      exact hmempos q hq
    · intro h
      exact hne (List.map_eq_nil_iff.mp h)
  have hsum : flSum ((cellRetained x y z px py p).map Prod.snd) = Fl.fin S := by
    rw [hret, List.map_map]
    have : ((fun q : ℝ × Fl => q.2) ∘ (fun q : ℝ × ℝ => (q.1, Fl.fin q.2))) =
        (fun q : ℝ × ℝ => Fl.fin q.2) := rfl
    show flSum ((z.zip wR).map ((fun q : ℝ × Fl => q.2) ∘ (fun q : ℝ × ℝ => (q.1, Fl.fin q.2))))
        = Fl.fin S
    rw [this]
    have h2 : (z.zip wR).map (fun q : ℝ × ℝ => Fl.fin q.2) =
        ((z.zip wR).map Prod.snd).map Fl.fin := by
      rw [List.map_map]
      rfl
    rw [h2, flSum_map_fin]
  have hSne : Fl.fin S ≠ Fl.fin 0 := by
    intro h
    injection h with h0
    exact absurd h0 (ne_of_gt hSpos)
  simp only [cellValue]
  rw [hsum, hret]
  simp only [if_neg hSne]
  rw [List.map_map]
  have hptwise : ∀ q ∈ z.zip wR,
      ((fun q : ℝ × Fl => flMul (Fl.fin q.1) (flDiv q.2 (Fl.fin S))) ∘
        (fun q : ℝ × ℝ => (q.1, Fl.fin q.2))) q = Fl.fin (q.1 * q.2 * S⁻¹) := by
    intro q _
    show flMul (Fl.fin q.1) (flDiv (Fl.fin q.2) (Fl.fin S)) = Fl.fin (q.1 * q.2 * S⁻¹)
    rw [flDiv_fin_fin, if_neg (ne_of_gt hSpos), flMul_fin_fin, div_eq_mul_inv, mul_assoc]
  rw [List.map_congr_left hptwise]
  have hfin : (z.zip wR).map (fun q : ℝ × ℝ => Fl.fin (q.1 * q.2 * S⁻¹)) =
      ((z.zip wR).map (fun q : ℝ × ℝ => q.1 * q.2 * S⁻¹)).map Fl.fin := by
    rw [List.map_map]
    rfl
  rw [hfin, flSum_map_fin]
  have hsplit : (z.zip wR).map (fun q : ℝ × ℝ => q.1 * q.2 * S⁻¹) =
      (z.zip wR).map (fun q : ℝ × ℝ => (fun q : ℝ × ℝ => q.1 * q.2) q * S⁻¹) := rfl
  have hTT : ((z.zip wR).map (fun q : ℝ × ℝ => q.1 * q.2 * S⁻¹)).sum =
      ((z.zip wR).map (fun q : ℝ × ℝ => q.1 * q.2)).sum * S⁻¹ := by
    rw [hsplit]
    exact List.sum_map_mul_right (z.zip wR) (fun q : ℝ × ℝ => q.1 * q.2) S⁻¹
  set TT : ℝ := ((z.zip wR).map (fun q : ℝ × ℝ => q.1 * q.2)).sum with hTTdef
  have hbmem : ∀ q ∈ z.zip wR, listMin z ≤ q.1 ∧ q.1 ≤ listMax z := by
    intro q hq
    rcases q with ⟨a, b⟩
    have ha : a ∈ z := (List.of_mem_zip hq).1
    exact ⟨listMin_le_of_mem ha, le_listMax_of_mem ha⟩
  have hbounds := weighted_sum_bounds (z.zip wR) (listMin z) (listMax z) hmempos hbmem
  refine ⟨((z.zip wR).map (fun q : ℝ × ℝ => q.1 * q.2 * S⁻¹)).sum, rfl, ?_, ?_⟩
  · rw [hTT, ← div_eq_mul_inv]
    exact (le_div_iff₀ hSpos).mpr hbounds.1
  · rw [hTT, ← div_eq_mul_inv]
    exact (div_le_iff₀ hSpos).mpr hbounds.2

/-- Witness for the amended claim C2: one sample at `(0,0)` with value `5`
and the target at `(1,0)`. -/
theorem kernel_value_in_range_witness :
    (([5] : List ℝ) ≠ [] ∧ (∀ q ∈ ([0] : List ℝ).zip ([0] : List ℝ),
      ((1 : ℝ) - q.1) ^ 2 + ((0 : ℝ) - q.2) ^ 2 ≠ 0)) ∧
    ∃ v : ℝ, cellValue [0] [0] [5] 1 0 2 = Fl.fin v ∧
      listMin [5] ≤ v ∧ v ≤ listMax [5] :=
  ⟨⟨by simp, by
      intro q hq
      have h0 : q = ((0 : ℝ), (0 : ℝ)) := List.mem_singleton.mp hq
      subst h0
      norm_num⟩,
   kernel_value_in_range [0] [0] [5] 1 0 2 rfl rfl (by simp)
     (by
      intro q hq
      have h0 : q = ((0 : ℝ), (0 : ℝ)) := List.mem_singleton.mp hq
      subst h0
      norm_num)⟩

/-! Concrete evaluations of the kernel at zero-distance targets -/

lemma distances_single_zero : distancesList [(0 : ℝ)] [(0 : ℝ)] 0 0 = [0] := by
  show [Real.sqrt (((0 : ℝ) - 0) ^ 2 + ((0 : ℝ) - 0) ^ 2)] = [(0 : ℝ)]
  norm_num

lemma weights_single_zero : weightsList [(0 : ℝ)] [(0 : ℝ)] 0 0 2 = [Fl.inf] := by
  unfold weightsList
  rw [distances_single_zero]
  show [flDiv (Fl.fin 1) (Fl.fin ((0 : ℝ) ^ 2))] = [Fl.inf]
  norm_num [flDiv_fin_fin]

lemma retained_single_zero :
    cellRetained [(0 : ℝ)] [(0 : ℝ)] [(5 : ℝ)] 0 0 2 = [((5 : ℝ), Fl.inf)] := by
  unfold cellRetained
  rw [weights_single_zero]
  rfl

lemma inf_ne_fin_zero : Fl.inf ≠ Fl.fin 0 := fun h => Fl.noConfusion h

/-- Claim C3 evaluation: one sample at `(0,0)` with value `5`, target at
`(0,0)` (zero distance).  The kernel normalizes the infinite weight by the
infinite weight sum, `inf/inf` is invalid, and the cell value is the
invalid value, not the sample value `5`. -/
theorem single_sample_zero_distance_nan :
    cellValue [0] [0] [5] 0 0 2 = Fl.nan ∧ Fl.nan ≠ Fl.fin 5 := by
  constructor
  · simp only [cellValue]
    rw [retained_single_zero]
    have hs : flSum ([((5 : ℝ), Fl.inf)].map Prod.snd) = Fl.inf := rfl
    rw [hs]
    simp only [if_neg inf_ne_fin_zero]
    rfl
  · exact fun h => Fl.noConfusion h

lemma distances_pair_zero :
    distancesList [(0 : ℝ), 1] [(0 : ℝ), 1] 0 0 = [0, Real.sqrt 2] := by
  show [Real.sqrt (((0 : ℝ) - 0) ^ 2 + ((0 : ℝ) - 0) ^ 2),
        Real.sqrt (((0 : ℝ) - 1) ^ 2 + ((0 : ℝ) - 1) ^ 2)] = [0, Real.sqrt 2]
  norm_num

lemma weights_pair_zero :
    weightsList [(0 : ℝ), 1] [(0 : ℝ), 1] 0 0 2 = [Fl.inf, Fl.fin (1/2)] := by
  unfold weightsList
  rw [distances_pair_zero]
  show [flDiv (Fl.fin 1) (Fl.fin ((0 : ℝ) ^ 2)),
        flDiv (Fl.fin 1) (Fl.fin (Real.sqrt 2 ^ 2))] = [Fl.inf, Fl.fin (1/2)]
  rw [Real.sq_sqrt (by norm_num : (0 : ℝ) ≤ 2)]
  norm_num [flDiv_fin_fin]

lemma retained_pair_zero :
    cellRetained [(0 : ℝ), 1] [(0 : ℝ), 1] [(5 : ℝ), 7] 0 0 2 =
      [((5 : ℝ), Fl.inf), ((7 : ℝ), Fl.fin (1/2))] := by
  unfold cellRetained
  rw [weights_pair_zero]
  show List.filter (fun q => flPosB q.2)
      [((5 : ℝ), Fl.inf), ((7 : ℝ), Fl.fin (1/2))] = _
  norm_num [List.filter_cons, flPosB]

lemma cell_pair_zero_nan :
    cellValue [(0 : ℝ), 1] [(0 : ℝ), 1] [(5 : ℝ), 7] 0 0 2 = Fl.nan := by
  simp only [cellValue]
  rw [retained_pair_zero]
  have hs : flSum ([((5 : ℝ), Fl.inf), ((7 : ℝ), Fl.fin (1/2))].map Prod.snd) = Fl.inf := rfl
  rw [hs]
  simp only [if_neg inf_ne_fin_zero]
  rfl

/-- Claim C2 counterexample: samples `(0,0) -> 5` and `(1,1) -> 7`; the grid
cell `(0,0)` (the corner of the bounding box) coincides with the first
sample.  The kernel output there is the invalid value, so no finite value
within `[min z, max z] = [5, 7]` is produced. -/
theorem kernel_range_counterexample :
    ¬ ∃ v : ℝ, (idw [0, 1] [0, 1] [5, 7] [0] [0] 2 1)[0]? = some (Fl.fin v) ∧
      listMin [5, 7] ≤ v ∧ v ≤ listMax [5, 7] := by
  have hidw : (idw [0, 1] [0, 1] [5, 7] [0] [0] 2 1)[0]? = some Fl.nan := by
    rw [idw_getElem [0, 1] [0, 1] [5, 7] [0] [0] 2 1 0 (by norm_num)]
    exact congrArg some cell_pair_zero_nan
  rintro ⟨v, hv, -⟩
  rw [hidw] at hv
  injection hv with h
  exact Fl.noConfusion h

/-! The stored surface is the flat kernel output -/

lemma flatten_map_const_length (ys : List ℝ) (xs : List ℝ) :
    ((ys.map (fun _ => xs)).flatten).length = ys.length * xs.length := by
  induction ys with
  | nil => simp
  | cons b t ih =>
    show (xs ++ (t.map (fun _ => xs)).flatten).length = (t.length + 1) * xs.length
    rw [List.length_append, ih]
    ring

lemma gridXs_unit_len : (gridXs [(0 : ℝ), 1] (1/2)).length = 2 := by
  rw [gridXs, arange, List.length_map, List.length_range]
  have h1 : listMax [(0 : ℝ), 1] = 1 := by norm_num [listMax, List.foldl, max_def]
  have h2 : listMin [(0 : ℝ), 1] = 0 := by norm_num [listMin, List.foldl, min_def]
  rw [h1, h2]
  have h3 : Int.ceil (((1 : ℝ) - 0) / (1/2)) = 2 := by norm_num
  rw [h3]
  rfl

/-- Claim C7 evaluation: two samples spanning the unit square with
`cell_size = 1/2` give a `2 x 2` grid, but the surface stored in the
returned mapping has shape `(4,)` — the flat kernel output, not the 2-D
grid shape. -/
theorem surface_stored_flat :
    ((idw_interpolation [0, 1] [0, 1] [⟨"f", some [5, 7]⟩] 2 1 (1/2) []).2.2.getD 0
      ("", ⟨[], []⟩)).2.shape = [4] ∧
    ([4] : List ℕ) ≠ [2, 2] ∧
    (gridXs [0, 1] (1/2)).length = 2 ∧ (gridYs [0, 1] (1/2)).length = 2 := by
  have hys : (gridYs [(0 : ℝ), 1] (1/2)).length = 2 := gridXs_unit_len
  refine ⟨?_, by decide, gridXs_unit_len, hys⟩
  simp only [idw_interpolation]
  have hcols : attributeCols [⟨"f", some [5, 7]⟩] [] = [⟨"f", some [5, 7]⟩] := by
    simp [attributeCols, List.filter_cons]
  rw [hcols]
  simp only [List.filterMap_cons, List.filterMap_nil, Option.map_some', List.getD_cons_zero]
  show [((meshX (gridXs [0, 1] (1/2)) (gridYs [0, 1] (1/2))).flatten).length] = [4]
  rw [meshX, flatten_map_const_length, gridXs_unit_len, hys]

end IdwRepo

end
